import Mathlib

/-!
Verification development for the hippocampal-normative-models repository.

This file gives a shallow embedding, in Lean 4, of the decision logic of
the repository's sequence-selection and subject-reconciliation scripts:

* scripts/convert_ppmi_dicom_to_nifti.py — pattern classification of
  series labels, priority ranking, session-date derivation, candidate
  discovery over the DICOM directory tree, and best-sequence selection
  with run-number assignment;
* scripts/match_subjects_with_volumes.py — the subject-identifier
  normalizer;
* scripts/combine_volumes_with_subjects.py — per-dataset inner joins of
  subject rows with volume rows, row-wise union, and the QC threshold
  gate.

Python strings are modelled as Lean String (operating on the character
list String.data, matching Python's code-point semantics for the ASCII
data these scripts handle); pandas data frames are modelled as an
explicit column list plus rows given as association lists, with an
absent key standing for a missing value (NaN); the file system is
modelled as a finite tree.  All definitions are executable, so concrete
behaviour can be settled by evaluation.
-/

/-! ## Character and substring helpers

Python's `needle in haystack` is a contiguous-substring test; `str.lower`
maps characters to lower case.  A Python regular expression of the shape
`.*word.*` applied with `re.match` succeeds exactly when `word` occurs
inside the maximal newline-free prefix of the subject string, because
`re.match` anchors at the start and `.` does not match a newline.
-/

/-- Contiguous-substring test on character lists: Python's `p in s`. -/
def isSub (p : List Char) : List Char → Bool
  | [] => decide (p = [])
  | c :: rest => decide (List.take p.length (c :: rest) = p) || isSub p rest

/-- Lower-cased character list of a string: Python's `s.lower()` (the
labels handled here are ASCII, where Char.toLower agrees with Python). -/
def lowerData (s : String) : List Char := s.data.map Char.toLower

/-- The maximal newline-free prefix: the region `re.match` with default
flags can see through a pattern of the shape `.*word.*`. -/
def firstLine (cs : List Char) : List Char := cs.takeWhile (fun c => !(c == '\n'))

/-- `re.match(".*" + word + ".*", s)` for a literal `word` without
metacharacters: `word` occurs within the newline-free prefix of `s`. -/
def reMatchWord (word : String) (s : List Char) : Bool :=
  isSub word.data (firstLine s)

/-! ## scripts/convert_ppmi_dicom_to_nifti.py — pattern tables -/

/-- T1_PATTERNS of convert_ppmi_dicom_to_nifti.py, with the enclosing
regex dressing stripped to the literal word each pattern tests for. -/
def T1_WORDS : List String := ["T1", "MPRAGE", "FSPGR", "SPGR"]

/-- EXCLUDE_PATTERNS of convert_ppmi_dicom_to_nifti.py. -/
def EXCLUDE_WORDS : List String := ["localizer", "scout", "calibration"]

/-- SEQUENCE_PRIORITY of convert_ppmi_dicom_to_nifti.py. -/
def SEQUENCE_PRIORITY : List String :=
  ["3D_T1-weighted", "3D_T1_weighted", "MPRAGE_GRAPPA", "MPRAGE",
   "SAG_3D_MPRAGE", "SAG_3D_T1_MPRAGE", "3D_T1_MPRAGE", "SAG_3D_FSPGR",
   "SAG_3D_T1_FSPGR", "FSPGR"]

/-- The exclusion test of is_t1_sequence: some exclude pattern matches
the lower-cased label (the exclude words are already lower case, so
lowering them is a no-op that keeps the definition uniform). -/
def matchesExclude (s : String) : Bool :=
  EXCLUDE_WORDS.any (fun w => reMatchWord (String.mk (lowerData w)) (lowerData s))

/-- The inclusion test of is_t1_sequence: some T1 pattern matches the
lower-cased label case-insensitively. -/
def matchesT1 (s : String) : Bool :=
  T1_WORDS.any (fun w => reMatchWord (String.mk (lowerData w)) (lowerData s))

/-- is_t1_sequence: exclude patterns are checked first and win. -/
def is_t1_sequence (s : String) : Bool :=
  if matchesExclude s then false else matchesT1 s

/-- Case-insensitive substring test: Python's
`priority_seq.lower() in sequence_name.lower()`. -/
def ciSubstr (p s : String) : Bool := isSub (lowerData p) (lowerData s)

/-- Index of the first match in a priority table, or the table length
when nothing matches: the loop body of get_sequence_priority. -/
def prioIdx (name : String) : List String → Nat
  | [] => 0
  | p :: rest => if ciSubstr p name then 0 else prioIdx name rest + 1

/-- get_sequence_priority of convert_ppmi_dicom_to_nifti.py. -/
def get_sequence_priority (name : String) : Nat := prioIdx name SEQUENCE_PRIORITY

/-! ## Session-date derivation -/

/-- The leading YYYY-MM-DD match of extract_session_date: Python's
`re.match(r'(\d{4})-(\d{2})-(\d{2})', s)`, returning the concatenated
digit groups when the first ten characters fit the shape. -/
def leadingDateGroups : List Char → Option (List Char)
  | c0 :: c1 :: c2 :: c3 :: d0 :: c4 :: c5 :: d1 :: c6 :: c7 :: _ =>
      if c0.isDigit && c1.isDigit && c2.isDigit && c3.isDigit &&
         (d0 == '-') && c4.isDigit && c5.isDigit && (d1 == '-') &&
         c6.isDigit && c7.isDigit
      then some [c0, c1, c2, c3, c4, c5, c6, c7] else none
  | _ => none

/-- extract_session_date of convert_ppmi_dicom_to_nifti.py.  The
fallback branch is `s.replace('-','').replace('_','').replace('.','')[:8]`:
removing every occurrence of a single character is a character filter,
and the three sequential replacements compose to the filter chain
below; the Python slice [:8] is List.take 8 on characters. -/
def extract_session_date (s : String) : String :=
  match leadingDateGroups s.data with
  | some ds => String.mk ds
  | none =>
      String.mk ((((s.data.filter (fun c => !(c == '-'))).filter
        (fun c => !(c == '_'))).filter (fun c => !(c == '.'))).take 8)

example : extract_session_date "2011-04-05_14_45_45.0" = "20110405" := by decide
example : extract_session_date "2021-05-17_10_47_24.0" = "20210517" := by decide
example : extract_session_date "abcxyz123" = "abcxyz12" := by decide
example : extract_session_date "." = "" := by decide
example : is_t1_sequence "Localizer_T1" = false := by decide
example : is_t1_sequence "SAG_3D_MPRAGE" = true := by decide
example : get_sequence_priority "SAG_3D_MPRAGE" = 3 := by decide
example : get_sequence_priority "weird" = 10 := by decide

/-! ## Candidate discovery over the DICOM tree

find_t1_sequences walks `{subject}/{series}/{timestamp}/...`: it skips
non-directory entries at the series and timestamp levels, lists every
entry of a timestamp directory, takes the single child as the file
container when there is exactly one, otherwise the timestamp directory
itself, and counts the entries matching the glob `*.dcm` inside the
container (pathlib's glob matches any directory entry whose name fits
the pattern, and yields nothing when applied to a regular file). -/

/-- A finite directory tree: regular files and directories. -/
inductive FSTree where
  | file (name : String) : FSTree
  | dir (name : String) (children : List FSTree) : FSTree

/-- The entry name of a tree node. -/
def FSTree.entryName : FSTree → String
  | .file n => n
  | .dir n _ => n

/-- Whether a name matches the glob pattern `*.dcm`: it ends in the four
characters `.dcm`. -/
def matchesDcm (n : String) : Bool :=
  decide (n.data.drop (n.data.length - 4) = ['.', 'd', 'c', 'm']) &&
  decide (4 ≤ n.data.length)

/-- `list(dicom_dir.glob("*.dcm"))` reduced to the entry names: the
names of the children matching the pattern for a directory, and nothing
for a regular file. -/
def globDcm : FSTree → List String
  | .file _ => []
  | .dir _ cs => (cs.map FSTree.entryName).filter matchesDcm

/-- One discovered candidate: the dictionary built at the end of the
timestamp loop of find_t1_sequences, plus the run field that
select_best_sequences fills in later (created as none). -/
structure CandSeq where
  subject : String
  sequence_name : String
  session_date : String
  timestamp : String
  dicom_path : FSTree
  num_files : Nat
  priority : Nat
  run : Option Nat

/-- The container-resolution step: `dicom_dirs = list(timestamp_dir.iterdir())`
then `dicom_dirs[0] if len(dicom_dirs) == 1 else timestamp_dir`, with an
empty listing short-circuiting to no candidate. -/
def resolveContainer (tname : String) (cs : List FSTree) : Option FSTree :=
  match cs with
  | [] => none
  | [c] => some c
  | _ => some (FSTree.dir tname cs)

/-- The body of the timestamp loop of find_t1_sequences: resolve the
container, glob for DICOM files, drop the candidate when none are found. -/
def candidateOfTimestamp (subj sname tname : String) (cs : List FSTree) :
    Option CandSeq :=
  match resolveContainer tname cs with
  | none => none
  | some ct =>
      let files := globDcm ct
      if files.length = 0 then none
      else some
        { subject := subj, sequence_name := sname,
          session_date := extract_session_date tname, timestamp := tname,
          dicom_path := ct, num_files := files.length,
          priority := get_sequence_priority sname, run := none }

/-- find_t1_sequences of convert_ppmi_dicom_to_nifti.py, over the
children of the subject directory (directory iteration order is the
list order). -/
def find_t1_sequences (subj : String) (children : List FSTree) : List CandSeq :=
  children.flatMap fun e =>
    match e with
    | .file _ => []
    | .dir sname scs =>
        if is_t1_sequence sname then
          scs.flatMap fun t =>
            match t with
            | .file _ => []
            | .dir tname tcs => (candidateOfTimestamp subj sname tname tcs).toList
        else []

example :
    find_t1_sequences "3102"
      [FSTree.dir "MPRAGE"
        [FSTree.dir "2011-04-05_14_45_45.0" [FSTree.dir "I1" [FSTree.file "a.dcm"]]]] =
    [{ subject := "3102", sequence_name := "MPRAGE", session_date := "20110405",
       timestamp := "2011-04-05_14_45_45.0",
       dicom_path := FSTree.dir "I1" [FSTree.file "a.dcm"], num_files := 1,
       priority := 3, run := none }] := by rfl

example :
    find_t1_sequences "3102"
      [FSTree.dir "MPRAGE"
        [FSTree.dir "2011-04-05_14_45_45.0" [FSTree.dir "I1" [FSTree.file "a.IMA"]]]] =
    [] := by rfl

/-! ## Best-sequence selection

select_best_sequences groups candidates by session key (dictionary
insertion order, i.e. first-occurrence order), sorts each group by
priority with Python's stable sort (a stable sort by a key is uniquely
determined, so the insertion sort below computes the same list), keeps
the candidates tied at the minimum priority, and assigns run numbers
1..N when there is more than one. -/

/-- Replace the run field, as the selection loop does. -/
def setRun (r : Option Nat) (s : CandSeq) : CandSeq :=
  { s with run := r }

/-- Stable insertion of a candidate into a priority-sorted list.  The
inserted element is the earliest of the remaining original elements, and
on an equal priority it is placed in front, so sorting by repeated
insertion keeps ties in original order, exactly as Python's stable sort
does. -/
def insertByPriority (a : CandSeq) : List CandSeq → List CandSeq
  | [] => [a]
  | b :: l => if a.priority ≤ b.priority then a :: b :: l else b :: insertByPriority a l

/-- Stable sort by priority. -/
def sortByPriority : List CandSeq → List CandSeq
  | [] => []
  | a :: l => insertByPriority a (sortByPriority l)

/-- The per-session selection: sort by priority, keep the ties at the
best (head) priority, number them from 1 when there are at least two. -/
def selectSession (group : List CandSeq) : List CandSeq :=
  match sortByPriority group with
  | [] => []
  | best :: rest =>
      let bestSeqs := (best :: rest).filter (fun s => s.priority == best.priority)
      bestSeqs.enum.map (fun p =>
        setRun (if 1 < bestSeqs.length then some (p.1 + 1) else none) p.2)

/-- Session keys in first-occurrence order: the iteration order of the
Python dict that groups the candidates. -/
def keysInOrder (l : List String) : List String :=
  l.foldl (fun acc k => if k ∈ acc then acc else acc ++ [k]) []

/-- select_best_sequences of convert_ppmi_dicom_to_nifti.py. -/
def select_best_sequences (sequences : List CandSeq) : List CandSeq :=
  (keysInOrder (sequences.map (fun s => s.session_date))).flatMap fun k =>
    selectSession (sequences.filter (fun s => s.session_date == k))


example :
    select_best_sequences
      [{ subject := "1", sequence_name := "MPRAGE", session_date := "20110405",
         timestamp := "t", dicom_path := FSTree.file "x", num_files := 1,
         priority := 3, run := none },
       { subject := "1", sequence_name := "MPRAGE_2", session_date := "20110405",
         timestamp := "t", dicom_path := FSTree.file "y", num_files := 1,
         priority := 3, run := none },
       { subject := "1", sequence_name := "other_T1", session_date := "20110405",
         timestamp := "t", dicom_path := FSTree.file "z", num_files := 1,
         priority := 10, run := none }] =
      [{ subject := "1", sequence_name := "MPRAGE", session_date := "20110405",
         timestamp := "t", dicom_path := FSTree.file "x", num_files := 1,
         priority := 3, run := some 1 },
       { subject := "1", sequence_name := "MPRAGE_2", session_date := "20110405",
         timestamp := "t", dicom_path := FSTree.file "y", num_files := 1,
         priority := 3, run := some 2 }] := by rfl

/-! ## scripts/match_subjects_with_volumes.py — identifier normalizer

normalize_subject_id strips one leading BIDS prefix: Python's
`sid[4:]` after `sid.startswith('sub-')` removes the first four
characters. -/

/-- normalize_subject_id of match_subjects_with_volumes.py. -/
def normalize_subject_id (sid : String) : String :=
  if sid.data.take 4 = ['s', 'u', 'b', '-'] then String.mk (sid.data.drop 4) else sid

example : normalize_subject_id "sub-3102" = "3102" := by decide
example : normalize_subject_id "3102" = "3102" := by decide
example : normalize_subject_id "sub-sub-3102" = "sub-3102" := by decide

/-! ## scripts/combine_volumes_with_subjects.py — tables and the QC gate

A pandas data frame is modelled with an explicit column list and rows
given as association lists from column name to value; a key absent from
a row stands for a missing value (NaN).  Cell values are either numbers
(floats modelled as rationals; the script only compares them against
the fixed thresholds 0.75 and 0.70) or strings (identifiers, dataset
labels). -/

/-- A cell value of a table. -/
inductive Val where
  | num (q : ℚ) : Val
  | str (s : String) : Val
deriving DecidableEq

/-- One table row: an association list from column name to value. -/
abbrev TRow : Type := List (String × Val)

/-- Value of a row at a column; none models NaN / a missing field. -/
def lookupVal : TRow → String → Option Val
  | [], _ => none
  | (k, v) :: rest, c => if k = c then some v else lookupVal rest c

/-- A data frame: its columns and its rows. -/
structure DFrame where
  cols : List String
  rows : List TRow
deriving DecidableEq

/-- 0.75 as a rational, written as an explicit reduced fraction so the
kernel can evaluate comparisons against it. -/
def q075 : ℚ := ⟨3, 4, by norm_num, by norm_num⟩

/-- 0.70 as a rational, written as an explicit reduced fraction. -/
def q070 : ℚ := ⟨7, 10, by norm_num, by norm_num⟩

/-- The QC thresholds dictionary qc_thresholds of
combine_volumes_with_subjects.py (0.75, 0.75, 0.70). -/
def qc_thresholds : List (String × ℚ) :=
  [("qc_hippocampus+amygdala", q075),
   ("qc_general white matter", q075),
   ("qc_general grey matter", q070)]

/-- Whether a row passes one threshold: pandas keeps the rows where
`df[qc_col] >= threshold`; a NaN comparison is false, so a row without
a numeric value at the column fails. -/
def passesQC (t : String × ℚ) (r : TRow) : Bool :=
  match lookupVal r t.1 with
  | some (Val.num q) => decide (t.2 ≤ q)
  | _ => false

/-- One iteration of the QC filtering loop: the filter only runs when
the configured column exists in the frame (`if qc_col in
filtered_df.columns`), otherwise the frame passes through unchanged. -/
def qcStep (df : DFrame) (t : String × ℚ) : DFrame :=
  if t.1 ∈ df.cols then { cols := df.cols, rows := df.rows.filter (passesQC t) }
  else df

/-- The whole QC filtering loop over the configured thresholds. -/
def applyQC (df : DFrame) (ths : List (String × ℚ)) : DFrame :=
  ths.foldl qcStep df

example :
    (applyQC
      { cols := ["qc_general grey matter"],
        rows := [[("qc_general grey matter", Val.num ⟨9, 10, by norm_num, by norm_num⟩)],
                 [("qc_general grey matter", Val.num ⟨1, 2, by norm_num, by norm_num⟩)]] }
      qc_thresholds).rows =
    [[("qc_general grey matter", Val.num ⟨9, 10, by norm_num, by norm_num⟩)]] := by decide

/-! ## Per-dataset join and row-wise union

Step 3 of combine_volumes_with_subjects.py: for each dataset with a
volumes file, take the selected subjects whose dataset column equals
the label (skipping the dataset when there are none), find the volume
table's subject column (the first column whose lower-cased name
contains the word subject; the dataset is skipped when there is none),
and inner-join on equal identifiers.  pandas' inner merge emits one row
per matching pair, ordered by the left rows; the merged row carries the
columns of both sides. -/

/-- The columns of a volume table recognized as subject columns:
`[col for col in vol_df.columns if 'subject' in col.lower()]`. -/
def subjectCols (vol : DFrame) : List String :=
  vol.cols.filter (fun c => isSub ['s', 'u', 'b', 'j', 'e', 'c', 't'] (lowerData c))

/-- The inner merge of one dataset's selected subjects with its volume
table, or none when the dataset is skipped (no selected subjects, or no
recognizable subject column). -/
def mergeDataset (selected : DFrame) (subjCol : String) (label : String)
    (vol : DFrame) : Option DFrame :=
  let dsubs := selected.rows.filter
    (fun r => decide (lookupVal r "dataset" = some (Val.str label)))
  if dsubs.length = 0 then none
  else
    match subjectCols vol with
    | [] => none
    | volCol :: _ =>
        some { cols := selected.cols ++ vol.cols,
               rows := dsubs.flatMap fun s =>
                 (vol.rows.filter
                   (fun v => decide (lookupVal v volCol = lookupVal s subjCol))).map
                   (fun v => (s ++ v : TRow)) }

/-- The per-dataset match count the script reports
(`Matched {len(merged)}` at step 3); 0 for a skipped dataset. -/
def matchCountOf (selected : DFrame) (subjCol : String)
    (lv : String × DFrame) : Nat :=
  ((mergeDataset selected subjCol lv.1 lv.2).map (fun df => df.rows.length)).getD 0

/-- The per-dataset frames appended to matched_data, in dataset order. -/
def matchedFrames (selected : DFrame) (subjCol : String)
    (volumes : List (String × DFrame)) : List DFrame :=
  volumes.filterMap (fun lv => mergeDataset selected subjCol lv.1 lv.2)

/-- Step 4, `pd.concat(matched_data)`: the row-wise union; the columns
of the union are the columns contributed by every appended frame
(pandas takes the set union — here only membership in the column list
is ever consulted, so duplicates are harmless). -/
def combineAll (selected : DFrame) (subjCol : String)
    (volumes : List (String × DFrame)) : DFrame :=
  { cols := (matchedFrames selected subjCol volumes).flatMap (fun f => f.cols),
    rows := (matchedFrames selected subjCol volumes).flatMap (fun f => f.rows) }

/-- Steps 5–8: the QC gate applied once to the unioned table.  The
subsequent column selection and derived-metric steps keep the row set
unchanged, so the row-level content of the final saved table is the
row set computed here. -/
def finalTable (selected : DFrame) (subjCol : String)
    (volumes : List (String × DFrame)) : DFrame :=
  applyQC (combineAll selected subjCol volumes) qc_thresholds

/-! ## Theorems: pattern classifier, ranker, session keys, normalizer -/

/-- C6.  A series label matching both an exclusion pattern and an
inclusion pattern is excluded: is_t1_sequence checks the exclusion
patterns first and returns false as soon as one matches, so exclusion
takes precedence over inclusion. -/
theorem is_t1_sequence_exclusion_precedence (label : String)
    (hex : matchesExclude label = true) (_hin : matchesT1 label = true) :
    is_t1_sequence label = false := by
  simp [is_t1_sequence, hex]

/-- Witness for C6 at the spec's own example: the label Localizer_T1
matches an exclusion pattern and an inclusion pattern, and is excluded. -/
theorem is_t1_sequence_exclusion_precedence_witness :
    matchesExclude "Localizer_T1" = true ∧ matchesT1 "Localizer_T1" = true ∧
      is_t1_sequence "Localizer_T1" = false :=
  ⟨by decide, by decide,
    is_t1_sequence_exclusion_precedence "Localizer_T1" (by decide) (by decide)⟩

/-- The first-match behaviour of the ranking loop, over any table:
the returned index never exceeds the table length, every entry strictly
before it fails the case-insensitive substring test, the entry at the
index (when there is one) passes it, and the index is the table length
exactly when nothing matches. -/
theorem prioIdx_spec (name : String) (L : List String) :
    prioIdx name L ≤ L.length ∧
    (∀ j q, j < prioIdx name L → L.get? j = some q → ciSubstr q name = false) ∧
    (∀ q, L.get? (prioIdx name L) = some q → ciSubstr q name = true) ∧
    ((∀ p ∈ L, ciSubstr p name = false) → prioIdx name L = L.length) := by
  induction L with
  | nil =>
      refine ⟨Nat.le_refl 0, ?_, ?_, fun _ => rfl⟩
      · intro j q hj
        simp [prioIdx] at hj
      · intro q hq
        simp at hq
  | cons p rest ih =>
      obtain ⟨ih1, ih2, ih3, ih4⟩ := ih
      by_cases hp : ciSubstr p name = true
      · have hidx : prioIdx name (p :: rest) = 0 := by simp [prioIdx, hp]
        rw [hidx]
        refine ⟨Nat.zero_le _, ?_, ?_, ?_⟩
        · intro j q hj
          exact absurd hj (Nat.not_lt_zero j)
        · intro q hq
          simp at hq
          rw [← hq]
          exact hp
        · intro hall
          exact absurd (hall p (List.mem_cons_self p rest)) (by simp [hp])
      · have hp' : ciSubstr p name = false := by
          cases h : ciSubstr p name
          · rfl
          · exact absurd h hp
        have hidx : prioIdx name (p :: rest) = prioIdx name rest + 1 := by
          simp [prioIdx, hp']
        rw [hidx]
        refine ⟨?_, ?_, ?_, ?_⟩
        · simpa using Nat.succ_le_succ ih1
        · intro j q hj hq
          match j with
          | 0 =>
              simp at hq
              rw [← hq]
              exact hp'
          | j' + 1 =>
              exact ih2 j' q (Nat.lt_of_succ_lt_succ hj) (by simpa using hq)
        · intro q hq
          exact ih3 q (by simpa using hq)
        · intro hall
          have hrest : prioIdx name rest = rest.length :=
            ih4 (fun q hq => hall q (List.mem_cons_of_mem p hq))
          simp [hrest]

/-- C7.  get_sequence_priority returns the 0-based index of the first
entry of the fixed table SEQUENCE_PRIORITY whose name is a
case-insensitive substring of the label: every entry at a strictly
smaller index fails the substring test, the entry at the returned index
(when the index is a table position) passes it, the index never exceeds
the table length, and equals the table length exactly when no entry
matches. -/
theorem get_sequence_priority_first_match (name : String) :
    get_sequence_priority name ≤ SEQUENCE_PRIORITY.length ∧
    (∀ j q, j < get_sequence_priority name → SEQUENCE_PRIORITY.get? j = some q →
      ciSubstr q name = false) ∧
    (∀ q, SEQUENCE_PRIORITY.get? (get_sequence_priority name) = some q →
      ciSubstr q name = true) ∧
    ((∀ p ∈ SEQUENCE_PRIORITY, ciSubstr p name = false) →
      get_sequence_priority name = SEQUENCE_PRIORITY.length) :=
  prioIdx_spec name SEQUENCE_PRIORITY

/-- A successful leading-date match always produces the eight grouped
digit characters. -/
theorem leadingDateGroups_length {cs ds : List Char}
    (h : leadingDateGroups cs = some ds) : ds.length = 8 := by
  unfold leadingDateGroups at h
  split at h
  · split at h
    · cases h
      rfl
    · cases h
  · cases h

/-- C2, counterexample to the claim as stated: on the input consisting
of a single separator character the session key is empty, so the result
is not non-empty for every input string. -/
theorem extract_session_date_empty_counterexample :
    extract_session_date "." = "" := by decide

/-- C2 as amended.  For every input containing at least one character
other than the separators, extract_session_date returns a non-empty key
of at most 8 characters: the 8-digit YYYYMMDD form when the input has a
leading YYYY-MM-DD pattern, and otherwise the separator-stripped input
truncated to 8 characters; inputs consisting solely of separator
characters (and the empty input) yield the empty key instead. -/
theorem extract_session_date_amended (s : String)
    (h : s.data.any (fun c => !(c == '-' || c == '_' || c == '.')) = true) :
    extract_session_date s ≠ "" ∧ (extract_session_date s).data.length ≤ 8 := by
  unfold extract_session_date
  cases hd : leadingDateGroups s.data with
  | some ds =>
      have hlen : ds.length = 8 := leadingDateGroups_length hd
      constructor
      · intro he
        have hnil : ds = [] := congrArg String.data he
        rw [hnil] at hlen
        cases hlen
      · simp [hlen]
  | none =>
      obtain ⟨c, hc, hcp⟩ := List.any_eq_true.mp h
      have hc1 : ¬ (c == '-') = true := by
        intro hb
        simp [hb] at hcp
      have hc2 : ¬ (c == '_') = true := by
        intro hb
        simp [hb] at hcp
      have hc3 : ¬ (c == '.') = true := by
        intro hb
        simp [hb] at hcp
      have hmem : c ∈ ((s.data.filter (fun c => !(c == '-'))).filter
          (fun c => !(c == '_'))).filter (fun c => !(c == '.')) := by
        refine List.mem_filter.mpr ⟨List.mem_filter.mpr ⟨List.mem_filter.mpr ⟨hc, ?_⟩, ?_⟩, ?_⟩
        · simpa using hc1
        · simpa using hc2
        · simpa using hc3
      have hne : (((s.data.filter (fun c => !(c == '-'))).filter
          (fun c => !(c == '_'))).filter (fun c => !(c == '.'))) ≠ [] :=
        List.ne_nil_of_mem hmem
      obtain ⟨a, t, hat⟩ := List.exists_cons_of_ne_nil hne
      constructor
      · intro he
        have hnil : (((s.data.filter (fun c => !(c == '-'))).filter
            (fun c => !(c == '_'))).filter (fun c => !(c == '.'))).take 8 = [] :=
          congrArg String.data he
        rw [hat] at hnil
        cases hnil
      · simp

/-- Witness for C2 at the spec's own example: the timestamp directory
name with a leading date yields the non-empty 8-digit key 20110405. -/
theorem extract_session_date_amended_witness :
    extract_session_date "2011-04-05_14_45_45.0" = "20110405" ∧
      extract_session_date "2011-04-05_14_45_45.0" ≠ "" :=
  ⟨by decide, (extract_session_date_amended "2011-04-05_14_45_45.0" (by decide)).1⟩

/-- C3, counterexample to the claim as stated: normalize_subject_id is
not idempotent on every string, because it strips only one occurrence
of the prefix; on the doubly-prefixed identifier a second application
strips again. -/
theorem normalize_subject_id_counterexample :
    normalize_subject_id (normalize_subject_id "sub-sub-3102") ≠
      normalize_subject_id "sub-sub-3102" := by decide

/-- C3 as amended.  normalize_subject_id is idempotent on every
identifier whose normalized form does not itself begin with the four
characters of the BIDS prefix — in particular on every identifier with
no prefix to strip, where it is the identity; it is not idempotent on
doubly-prefixed strings. -/
theorem normalize_subject_id_amended (x : String)
    (h : ¬ (normalize_subject_id x).data.take 4 = ['s', 'u', 'b', '-']) :
    normalize_subject_id (normalize_subject_id x) = normalize_subject_id x ∧
      (¬ x.data.take 4 = ['s', 'u', 'b', '-'] → normalize_subject_id x = x) := by
  have base : ∀ y : String, ¬ y.data.take 4 = ['s', 'u', 'b', '-'] →
      normalize_subject_id y = y := by
    intro y hy
    unfold normalize_subject_id
    rw [if_neg hy]
  exact ⟨base (normalize_subject_id x) h, base x⟩

/-- Witness for C3 at a prefix-free identifier: normalizing is the
identity there and in particular idempotent. -/
theorem normalize_subject_id_amended_witness :
    normalize_subject_id (normalize_subject_id "PPMI3102") =
      normalize_subject_id "PPMI3102" :=
  (normalize_subject_id_amended "PPMI3102" (by decide)).1

/-! ## Theorems: candidate discovery -/

/-- C9, counterexample to the claim as stated: a file container holding
one file whose name does not end in .dcm produces no candidate at all,
so a raw image file is not counted as present regardless of its
extension. -/
theorem find_t1_sequences_extension_counterexample :
    find_t1_sequences "3102"
      [FSTree.dir "MPRAGE"
        [FSTree.dir "2011-04-05_14_45_45.0"
          [FSTree.dir "I1" [FSTree.file "slice1.IMA"]]]] = [] := by rfl

/-- C9 as amended.  Candidate discovery counts as image files exactly
the container entries matching the glob pattern *.dcm: every discovered
candidate records as its file count the number of .dcm-named entries of
its container, and that count is positive; containers whose files all
have other names yield no candidate. -/
theorem find_t1_sequences_dcm_count (subj : String) (children : List FSTree)
    (c : CandSeq) (hc : c ∈ find_t1_sequences subj children) :
    c.num_files = (globDcm c.dicom_path).length ∧ 0 < c.num_files := by
  unfold find_t1_sequences at hc
  obtain ⟨e, _, hce⟩ := List.mem_flatMap.mp hc
  cases e with
  | file n => cases hce
  | dir sname scs =>
      dsimp only at hce
      by_cases ht : is_t1_sequence sname = true
      · rw [if_pos ht] at hce
        obtain ⟨t, _, hct⟩ := List.mem_flatMap.mp hce
        cases t with
        | file n => cases hct
        | dir tname tcs =>
            dsimp only at hct
            unfold candidateOfTimestamp at hct
            cases hrc : resolveContainer tname tcs with
            | none =>
                rw [hrc] at hct
                cases hct
            | some ct =>
                rw [hrc] at hct
                dsimp only at hct
                by_cases hz : (globDcm ct).length = 0
                · rw [if_pos hz] at hct
                  cases hct
                · rw [if_neg hz] at hct
                  have hc' := List.mem_singleton.mp (by simpa using hct)
                  rw [hc']
                  exact ⟨rfl, Nat.pos_of_ne_zero hz⟩
      · rw [if_neg ht] at hce
        cases hce

/-- A concrete subject tree with one .dcm file, used to witness the
amended C9: one series directory, one timestamp directory, one file
container holding a single DICOM file. -/
def dcmTreeExample : List FSTree :=
  [FSTree.dir "MPRAGE"
    [FSTree.dir "2011-04-05_14_45_45.0" [FSTree.dir "I1" [FSTree.file "a.dcm"]]]]

/-- The candidate discovered in dcmTreeExample. -/
def dcmCandExample : CandSeq :=
  { subject := "3102", sequence_name := "MPRAGE", session_date := "20110405",
    timestamp := "2011-04-05_14_45_45.0",
    dicom_path := FSTree.dir "I1" [FSTree.file "a.dcm"], num_files := 1,
    priority := 3, run := none }

/-- Witness for C9 at a container holding one .dcm file: the discovered
candidate counts exactly that file and its count is positive. -/
theorem find_t1_sequences_dcm_count_witness :
    dcmCandExample.num_files = (globDcm dcmCandExample.dicom_path).length ∧
      0 < dcmCandExample.num_files :=
  find_t1_sequences_dcm_count "3102" dcmTreeExample dcmCandExample
    (show dcmCandExample ∈ [dcmCandExample] from List.Mem.head [])

/-- C10.  When a timestamp directory has two or more child entries, the
timestamp directory itself is the file container and only entries
directly inside it are counted, so a session whose image files live
only inside two or more subdirectories yields no candidate; and when
the single child entry is a regular file, globbing it yields nothing,
so again no candidate is produced. -/
theorem candidateOfTimestamp_container_shape (subj sname tname fname : String)
    (cs : List FSTree) :
    (2 ≤ cs.length →
      (∀ e ∈ cs, (∃ n ch, e = FSTree.dir n ch) ∧ matchesDcm e.entryName = false) →
      candidateOfTimestamp subj sname tname cs = none) ∧
    candidateOfTimestamp subj sname tname [FSTree.file fname] = none := by
  constructor
  · intro hlen hsub
    match cs, hlen with
    | c1 :: c2 :: rest, _ =>
        unfold candidateOfTimestamp resolveContainer
        have hglob : globDcm (FSTree.dir tname (c1 :: c2 :: rest)) = [] := by
          unfold globDcm
          refine List.filter_eq_nil_iff.mpr ?_
          intro n hn
          obtain ⟨e, he, hne⟩ := List.mem_map.mp hn
          rw [← hne]
          simp [(hsub e he).2]
        simp [hglob]
  · rfl

/-! ## Theorems: the QC gate -/

/-- One filtering step never changes the column list. -/
theorem qcStep_cols (df : DFrame) (t : String × ℚ) : (qcStep df t).cols = df.cols := by
  unfold qcStep
  split
  · rfl
  · rfl

/-- The whole filtering loop never changes the column list. -/
theorem applyQC_cols (df : DFrame) (ths : List (String × ℚ)) :
    (applyQC df ths).cols = df.cols := by
  induction ths generalizing df with
  | nil => rfl
  | cons t rest ih =>
      show (applyQC (qcStep df t) rest).cols = df.cols
      rw [ih, qcStep_cols]

/-- Membership after one filtering step: the row survives when the
configured column is absent from the frame, and otherwise exactly when
it passes the threshold. -/
theorem mem_qcStep (df : DFrame) (t : String × ℚ) (r : TRow) :
    r ∈ (qcStep df t).rows ↔
      r ∈ df.rows ∧ (t.1 ∈ df.cols → passesQC t r = true) := by
  unfold qcStep
  by_cases hcol : t.1 ∈ df.cols
  · rw [if_pos hcol]
    simp [List.mem_filter, hcol]
  · rw [if_neg hcol]
    simp [hcol]

/-- Membership in the fully filtered frame: a row of the input that,
for every configured threshold whose column exists in the frame, passes
that threshold. -/
theorem mem_applyQC (df : DFrame) (ths : List (String × ℚ)) (r : TRow) :
    r ∈ (applyQC df ths).rows ↔
      r ∈ df.rows ∧ ∀ t ∈ ths, t.1 ∈ df.cols → passesQC t r = true := by
  induction ths generalizing df with
  | nil => simp [applyQC]
  | cons t rest ih =>
      show r ∈ (applyQC (qcStep df t) rest).rows ↔ _
      rw [ih (qcStep df t)]
      rw [qcStep_cols, mem_qcStep]
      simp [List.forall_mem_cons, and_assoc]

/-- Filtering can only shrink the row list. -/
theorem applyQC_length_le (df : DFrame) (ths : List (String × ℚ)) :
    (applyQC df ths).rows.length ≤ df.rows.length := by
  induction ths generalizing df with
  | nil => exact Nat.le_refl _
  | cons t rest ih =>
      refine Nat.le_trans (ih (qcStep df t)) ?_
      unfold qcStep
      split
      · exact List.length_filter_le _ _
      · exact Nat.le_refl _

/-- C4, counterexample to the claim as stated: a configured QC field
that is absent from the unioned table's columns is skipped rather than
treated as failing — the row below is missing every configured field,
yet the QC gate retains it. -/
theorem applyQC_missing_column_counterexample :
    (applyQC { cols := ["vol_left hippocampus"],
               rows := [[("vol_left hippocampus", Val.num 1)]] }
        qc_thresholds).rows = [[("vol_left hippocampus", Val.num 1)]] ∧
    lookupVal [("vol_left hippocampus", Val.num 1)] "qc_hippocampus+amygdala" = none := by
  constructor
  · decide
  · decide

/-- C4 as amended.  The QC gate retains exactly the rows in which every
configured QC field that occurs among the table's columns is at or
above its minimum-inclusive threshold; a row missing a value for such a
present configured column fails that filter and is excluded regardless
of the other fields, while a configured field that is not a column of
the table at all is skipped and excludes nothing.  (The retained set is
characterised as a conjunction over the configured filters, so it does
not depend on the order in which the filters are applied.) -/
theorem applyQC_retains_iff (df : DFrame) (ths : List (String × ℚ)) (r : TRow) :
    r ∈ (applyQC df ths).rows ↔
      r ∈ df.rows ∧ ∀ t ∈ ths, t.1 ∈ df.cols → passesQC t r = true :=
  mem_applyQC df ths r

/-! ## Theorems: per-dataset joins and the unioned table -/

/-- Looking a key up in a concatenation finds the left value first. -/
theorem lookupVal_append_of_some {r : TRow} {k : String} {v : Val}
    (h : lookupVal r k = some v) (r2 : TRow) : lookupVal (r ++ r2) k = some v := by
  induction r with
  | nil => cases h
  | cons a rest ih =>
      obtain ⟨k1, v1⟩ := a
      unfold lookupVal at h
      show (if k1 = k then some v1 else lookupVal (rest ++ r2) k) = some v
      by_cases hk : k1 = k
      · rw [if_pos hk] at h ⊢
        exact h
      · rw [if_neg hk] at h ⊢
        exact ih h

/-- Every row of a per-dataset merge carries that dataset's label in
its dataset column (the label comes from the selected-subjects side of
the join, whose rows were filtered on it). -/
theorem mergeDataset_row_label {sel : DFrame} {sc l : String} {vol : DFrame}
    {df : DFrame} (h : mergeDataset sel sc l vol = some df) :
    ∀ r ∈ df.rows, lookupVal r "dataset" = some (Val.str l) := by
  intro r hr
  unfold mergeDataset at h
  dsimp only at h
  split at h
  · cases h
  · split at h
    · cases h
    · cases h
      obtain ⟨s, hs, hmap⟩ := List.mem_flatMap.mp hr
      obtain ⟨v, _, hv⟩ := List.mem_map.mp hmap
      have hlab : lookupVal s "dataset" = some (Val.str l) := by
        have := (List.mem_filter.mp hs).2
        exact of_decide_eq_true this
      rw [← hv]
      exact lookupVal_append_of_some hlab v

/-- The row list of the union, one dataset at a time. -/
theorem combineAll_cons (sel : DFrame) (sc : String) (w : String × DFrame)
    (rest : List (String × DFrame)) :
    (combineAll sel sc (w :: rest)).rows =
      (match mergeDataset sel sc w.1 w.2 with
        | some f => f.rows
        | none => []) ++ (combineAll sel sc rest).rows := by
  cases h : mergeDataset sel sc w.1 w.2 with
  | none => simp [combineAll, matchedFrames, List.filterMap_cons, h]
  | some f => simp [combineAll, matchedFrames, List.filterMap_cons, h]

/-- The union has exactly as many rows as the per-dataset match counts
add up to. -/
theorem combineAll_rows_length (sel : DFrame) (sc : String)
    (volumes : List (String × DFrame)) :
    (combineAll sel sc volumes).rows.length =
      (volumes.map (matchCountOf sel sc)).sum := by
  induction volumes with
  | nil => rfl
  | cons w rest ih =>
      rw [List.map_cons, List.sum_cons, combineAll_cons, List.length_append, ih]
      cases h : mergeDataset sel sc w.1 w.2 with
      | none => simp [matchCountOf, h]
      | some f => simp [matchCountOf, h]

/-- Every row of the union comes from the merge of some dataset in the
volume list. -/
theorem mem_combineAll_rows {sel : DFrame} {sc : String}
    {volumes : List (String × DFrame)} {r : TRow}
    (hr : r ∈ (combineAll sel sc volumes).rows) :
    ∃ lv ∈ volumes, ∃ df, mergeDataset sel sc lv.1 lv.2 = some df ∧ r ∈ df.rows := by
  induction volumes with
  | nil => cases hr
  | cons w rest ih =>
      rw [combineAll_cons] at hr
      rcases List.mem_append.mp hr with hleft | hright
      · cases h : mergeDataset sel sc w.1 w.2 with
        | none =>
            rw [h] at hleft
            cases hleft
        | some f =>
            rw [h] at hleft
            exact ⟨w, List.mem_cons_self w rest, f, h, hleft⟩
      · obtain ⟨lv, hlv, df, hdf, hrdf⟩ := ih hright
        exact ⟨lv, List.mem_cons_of_mem w hlv, df, hdf, hrdf⟩

/-- Rows of the union carry the label of the dataset that produced
them, so counting the union's rows with a given dataset label recovers
exactly that dataset's match count (provided dataset labels are not
repeated, as they cannot be: the script keys the volume tables by a
dictionary). -/
theorem combineAll_label_count (sel : DFrame) (sc : String)
    (volumes : List (String × DFrame)) (hnd : (volumes.map Prod.fst).Nodup) :
    ∀ lv ∈ volumes, ((combineAll sel sc volumes).rows.filter
      (fun r => decide (lookupVal r "dataset" = some (Val.str lv.1)))).length =
      matchCountOf sel sc lv := by
  induction volumes with
  | nil =>
      intro lv hlv
      cases hlv
  | cons w rest ih =>
      rw [List.map_cons, List.nodup_cons] at hnd
      obtain ⟨hw, hndr⟩ := hnd
      intro lv hlv
      have rlab : ∀ r ∈ (combineAll sel sc rest).rows,
          ∃ l0 ∈ rest.map Prod.fst, lookupVal r "dataset" = some (Val.str l0) := by
        intro r hr
        obtain ⟨lv', hlv', df, hdf, hrdf⟩ := mem_combineAll_rows hr
        exact ⟨lv'.1, List.mem_map_of_mem Prod.fst hlv',
          mergeDataset_row_label hdf r hrdf⟩
      rw [combineAll_cons, List.filter_append, List.length_append]
      rcases List.mem_cons.mp hlv with heq | hmem
      · rw [heq]
        have h2 : (combineAll sel sc rest).rows.filter
            (fun r => decide (lookupVal r "dataset" = some (Val.str w.1))) = [] := by
          refine List.filter_eq_nil_iff.mpr ?_
          intro r hr
          obtain ⟨l0, hl0, hlabel⟩ := rlab r hr
          have hne : l0 ≠ w.1 := fun hc => hw (hc ▸ hl0)
          rw [hlabel]
          simp [hne]
        cases hm : mergeDataset sel sc w.1 w.2 with
        | none => simp [h2, matchCountOf, hm]
        | some f =>
            have hf := mergeDataset_row_label hm
            have h1 : f.rows.filter
                (fun r => decide (lookupVal r "dataset" = some (Val.str w.1))) = f.rows :=
              List.filter_eq_self.mpr (fun r hr => by rw [hf r hr]; simp)
            simp [h1, h2, matchCountOf, hm]
      · have hne : w.1 ≠ lv.1 := by
          intro hc
          exact hw (hc ▸ List.mem_map_of_mem Prod.fst hmem)
        have h1 : (match mergeDataset sel sc w.1 w.2 with
            | some f => f.rows
            | none => ([] : List TRow)).filter
            (fun r => decide (lookupVal r "dataset" = some (Val.str lv.1))) = [] := by
          cases hm : mergeDataset sel sc w.1 w.2 with
          | none => rfl
          | some f =>
              refine List.filter_eq_nil_iff.mpr ?_
              intro r hr
              rw [mergeDataset_row_label hm r hr]
              simp [hne]
        rw [h1]
        simp [ih hndr lv hmem]

/-- C5, counterexample to the claim as stated: one dataset with one
matching subject whose QC score is below threshold — the reported
match count is 1, but the final table (which is produced from the
union by QC filtering) has 0 rows, so the final table's per-dataset
row count does not equal the match count. -/
theorem finalTable_match_count_counterexample :
    matchCountOf
      { cols := ["subject_id", "dataset"],
        rows := [[("subject_id", Val.str "s1"), ("dataset", Val.str "A")]] }
      "subject_id"
      ("A", { cols := ["subject_id", "qc_hippocampus+amygdala"],
              rows := [[("subject_id", Val.str "s1"),
                        ("qc_hippocampus+amygdala",
                          Val.num ⟨1, 2, by norm_num, by norm_num⟩)]] }) = 1 ∧
    (finalTable
      { cols := ["subject_id", "dataset"],
        rows := [[("subject_id", Val.str "s1"), ("dataset", Val.str "A")]] }
      "subject_id"
      [("A", { cols := ["subject_id", "qc_hippocampus+amygdala"],
               rows := [[("subject_id", Val.str "s1"),
                         ("qc_hippocampus+amygdala",
                           Val.num ⟨1, 2, by norm_num, by norm_num⟩)]] })]).rows.length
      = 0 := by
  constructor
  · decide
  · decide

/-- C5 as amended.  The row count of the pre-QC unioned table belonging
to dataset D equals the per-dataset inner-join match count reported for
D, and the total pre-QC row count is the sum of those match counts over
all datasets with a volumes file present (datasets that are skipped —
no selected subjects or no recognizable subject column — report a count
of 0 and contribute no rows); the final table is then obtained from the
union by QC filtering, so its row count is only bounded above by that
sum rather than equal to it. -/
theorem combineAll_union_completeness (selected : DFrame) (subjCol : String)
    (volumes : List (String × DFrame)) :
    (combineAll selected subjCol volumes).rows.length =
      (volumes.map (matchCountOf selected subjCol)).sum ∧
    ((volumes.map Prod.fst).Nodup → ∀ lv ∈ volumes,
      ((combineAll selected subjCol volumes).rows.filter
        (fun r => decide (lookupVal r "dataset" = some (Val.str lv.1)))).length =
        matchCountOf selected subjCol lv) ∧
    (finalTable selected subjCol volumes).rows.length ≤
      (combineAll selected subjCol volumes).rows.length := by
  refine ⟨combineAll_rows_length selected subjCol volumes, ?_, ?_⟩
  · intro hnd lv hlv
    exact combineAll_label_count selected subjCol volumes hnd lv hlv
  · exact applyQC_length_le _ _

/-- Sums of pointwise sums of naturals split. -/
theorem sum_map_add_nat {α : Type} (L : List α) (f g : α → Nat) :
    (L.map (fun x => f x + g x)).sum = (L.map f).sum + (L.map g).sum := by
  induction L with
  | nil => rfl
  | cons a t ih =>
      simp [ih]
      omega

/-- A sum over a list bounded pointwise by 1 is bounded by the length. -/
theorem sum_map_le_length {α : Type} (L : List α) (f : α → Nat)
    (h : ∀ x ∈ L, f x ≤ 1) : (L.map f).sum ≤ L.length := by
  induction L with
  | nil => exact Nat.le_refl 0
  | cons a t ih =>
      rw [List.map_cons, List.sum_cons, List.length_cons]
      have ha := h a (List.mem_cons_self a t)
      have ht := ih (fun x hx => h x (List.mem_cons_of_mem a hx))
      omega

/-- A row's dataset label equals at most one of a family of distinct
labels, so the indicator sum over distinct labels is at most 1. -/
theorem sum_label_indicator_le_one (r : TRow) (L : List String) (hnd : L.Nodup) :
    (L.map (fun l => if lookupVal r "dataset" = some (Val.str l) then 1 else 0)).sum
      ≤ 1 := by
  induction L with
  | nil => exact Nat.zero_le 1
  | cons l t ih =>
      rw [List.nodup_cons] at hnd
      obtain ⟨hl, hndt⟩ := hnd
      rw [List.map_cons, List.sum_cons]
      by_cases hc : lookupVal r "dataset" = some (Val.str l)
      · have hz : (t.map (fun l0 =>
            if lookupVal r "dataset" = some (Val.str l0) then 1 else 0)).sum = 0 := by
          refine List.sum_eq_zero ?_
          intro x hx
          obtain ⟨l0, hl0, hxe⟩ := List.mem_map.mp hx
          rw [← hxe]
          have : ¬ lookupVal r "dataset" = some (Val.str l0) := by
            intro hc0
            rw [hc] at hc0
            have : l = l0 := by
              have := Option.some.inj hc0
              exact Val.str.inj this
            exact hl (this ▸ hl0)
          simp [this]
        rw [if_pos hc, hz]
      · simp only [if_neg hc, Nat.zero_add]
        exact ih hndt

/-- Rows grouped by distinct dataset labels never outnumber the rows:
the per-label filters are pairwise disjoint selections. -/
theorem sum_label_filter_le (L : List String) (rows : List TRow) (hnd : L.Nodup) :
    (L.map (fun l => (rows.filter
      (fun r => decide (lookupVal r "dataset" = some (Val.str l)))).length)).sum
      ≤ rows.length := by
  induction rows with
  | nil =>
      have hz : ∀ x ∈ L.map (fun l => (([] : List TRow).filter
          (fun r => decide (lookupVal r "dataset" = some (Val.str l)))).length), x = 0 := by
        intro x hx
        obtain ⟨l, _, hxe⟩ := List.mem_map.mp hx
        rw [← hxe]
        rfl
      rw [List.sum_eq_zero hz]
      simp
  | cons r rows ih =>
      have hsplit : ∀ l : String, ((r :: rows).filter
          (fun r0 => decide (lookupVal r0 "dataset" = some (Val.str l)))).length =
          (if lookupVal r "dataset" = some (Val.str l) then 1 else 0) +
          (rows.filter (fun r0 =>
            decide (lookupVal r0 "dataset" = some (Val.str l)))).length := by
        intro l
        rw [List.filter_cons]
        by_cases hc : lookupVal r "dataset" = some (Val.str l)
        · simp [hc, Nat.add_comm]
        · simp [hc]
      have hcongr : (L.map (fun l => ((r :: rows).filter
          (fun r0 => decide (lookupVal r0 "dataset" = some (Val.str l)))).length)) =
          L.map (fun l => (if lookupVal r "dataset" = some (Val.str l) then 1 else 0) +
            (rows.filter (fun r0 =>
              decide (lookupVal r0 "dataset" = some (Val.str l)))).length) :=
        List.map_congr_left (fun l _ => hsplit l)
      rw [hcongr, sum_map_add_nat, List.length_cons]
      have h1 := sum_label_indicator_le_one r L hnd
      omega

/-- When a volume table's identifier column has pairwise-distinct
values, each selected subject matches at most one volume row. -/
theorem filter_key_le_one (volRows : List TRow) (volCol : String)
    (hnd : (volRows.map (fun v => lookupVal v volCol)).Nodup) (x : Option Val) :
    (volRows.filter (fun v => decide (lookupVal v volCol = x))).length ≤ 1 := by
  induction volRows with
  | nil => exact Nat.zero_le 1
  | cons v t ih =>
      rw [List.map_cons, List.nodup_cons] at hnd
      obtain ⟨hv, hndt⟩ := hnd
      rw [List.filter_cons]
      by_cases hc : lookupVal v volCol = x
      · have hz : t.filter (fun v0 => decide (lookupVal v0 volCol = x)) = [] := by
          refine List.filter_eq_nil_iff.mpr ?_
          intro v0 hv0
          intro hdec
          have he : lookupVal v0 volCol = x := of_decide_eq_true hdec
          exact hv (by
            rw [hc, ← he]
            exact List.mem_map_of_mem (fun v1 => lookupVal v1 volCol) hv0)
        simp [hc, hz]
      · simp only [decide_eq_true_eq, hc]
        simpa using ih hndt

/-- An inner merge with a duplicate-free volume table yields at most
one row per selected subject of that dataset. -/
theorem mergeDataset_count_le {sel : DFrame} {sc l : String} {vol : DFrame}
    {df : DFrame} (h : mergeDataset sel sc l vol = some df)
    (hk : ∀ vc rest, subjectCols vol = vc :: rest →
      (vol.rows.map (fun v => lookupVal v vc)).Nodup) :
    df.rows.length ≤ (sel.rows.filter
      (fun r => decide (lookupVal r "dataset" = some (Val.str l)))).length := by
  unfold mergeDataset at h
  dsimp only at h
  by_cases hz : (sel.rows.filter
      (fun r => decide (lookupVal r "dataset" = some (Val.str l)))).length = 0
  · rw [if_pos hz] at h
    cases h
  · rw [if_neg hz] at h
    cases hsc : subjectCols vol with
    | nil =>
        rw [hsc] at h
        cases h
    | cons volCol rest =>
        rw [hsc] at h
        dsimp only at h
        injection h with h
        rw [← h]
        dsimp only
        rw [List.length_flatMap]
        refine sum_map_le_length _ _ ?_
        intro s _
        simp only [Function.comp_apply, List.length_map]
        exact filter_key_le_one vol.rows volCol (hk volCol rest hsc) _

/-- A selected-subjects table with a single subject of dataset A. -/
def selDupExample : DFrame :=
  { cols := ["subject_id", "dataset"],
    rows := [[("subject_id", Val.str "s1"), ("dataset", Val.str "A")]] }

/-- A volume table in which the same subject identifier appears on two
rows, both passing every QC threshold. -/
def volDupExample : DFrame :=
  { cols := ["subject_id", "qc_hippocampus+amygdala",
             "qc_general white matter", "qc_general grey matter"],
    rows := [[("subject_id", Val.str "s1"),
              ("qc_hippocampus+amygdala", Val.num 1),
              ("qc_general white matter", Val.num 1),
              ("qc_general grey matter", Val.num 1)],
             [("subject_id", Val.str "s1"),
              ("qc_hippocampus+amygdala", Val.num 1),
              ("qc_general white matter", Val.num 1),
              ("qc_general grey matter", Val.num 1)]] }

/-- C8, counterexample to the claim as stated: an inner join against a
volume table that lists the same subject identifier twice emits one row
per matching pair, so the final table has 2 rows from a single input
subject row — the output row count exceeds the sum of the input
SubjectRecord row counts. -/
theorem finalTable_rowcount_counterexample :
    (finalTable selDupExample "subject_id" [("A", volDupExample)]).rows.length = 2 ∧
    selDupExample.rows.length = 1 := by
  constructor
  · decide
  · decide

/-- C8 as amended.  When every dataset label occurs once and every
volume table's identifier column is duplicate-free, the final table has
at most as many rows as the selected-subjects table (without those
hypotheses the inner join can multiply rows, as the counterexample
shows); and unconditionally, every row of the final table satisfies
every configured QC threshold whose field occurs among the unioned
table's columns (a configured field absent from the union is skipped by
the gate and is not guaranteed). -/
theorem harmonized_invariants (selected : DFrame) (subjCol : String)
    (volumes : List (String × DFrame)) :
    ((volumes.map Prod.fst).Nodup →
      (∀ lv ∈ volumes, ∀ vc rest, subjectCols lv.2 = vc :: rest →
        ((lv.2).rows.map (fun v => lookupVal v vc)).Nodup) →
      (finalTable selected subjCol volumes).rows.length ≤ selected.rows.length) ∧
    (∀ r ∈ (finalTable selected subjCol volumes).rows, ∀ t ∈ qc_thresholds,
      t.1 ∈ (combineAll selected subjCol volumes).cols → passesQC t r = true) := by
  constructor
  · intro hnd hkeys
    refine le_trans (applyQC_length_le _ _) ?_
    rw [combineAll_rows_length]
    refine le_trans ?_ (sum_label_filter_le (volumes.map Prod.fst) selected.rows hnd)
    rw [List.map_map]
    refine List.sum_le_sum ?_
    intro lv hlv
    cases hm : mergeDataset selected subjCol lv.1 lv.2 with
    | none => simp [matchCountOf, hm]
    | some df =>
        have hle := mergeDataset_count_le hm (hkeys lv hlv)
        simpa [matchCountOf, hm] using hle
  · intro r hr t ht hcol
    exact ((mem_applyQC _ _ _).mp hr).2 t ht hcol

/-! ## Theorems: best-sequence selection and run numbers -/

/-- The minimum priority rank of a non-empty candidate group (0 for the
empty group, which never arises for a session key that occurs). -/
def minRank : List CandSeq → Nat
  | [] => 0
  | [s] => s.priority
  | s :: s1 :: t => min s.priority (minRank (s1 :: t))

/-- The candidates of one session, in discovery order: the group that
select_best_sequences forms for a session key. -/
def sessionGroup (sequences : List CandSeq) (k : String) : List CandSeq :=
  sequences.filter (fun s => s.session_date == k)

/-- The candidates of one session attaining the minimum priority rank,
in discovery order. -/
def minRankTies (sequences : List CandSeq) (k : String) : List CandSeq :=
  (sessionGroup sequences k).filter
    (fun s => s.priority == minRank (sessionGroup sequences k))

/-- The minimum rank is a lower bound for the group. -/
theorem minRank_le : ∀ (l : List CandSeq), ∀ s ∈ l, minRank l ≤ s.priority := by
  intro l
  induction l with
  | nil =>
      intro s hs
      cases hs
  | cons a t ih =>
      intro s hs
      cases t with
      | nil =>
          rcases List.mem_cons.mp hs with h | h
          · rw [h]
            exact Nat.le_refl _
          · cases h
      | cons b t2 =>
          rcases List.mem_cons.mp hs with h | h
          · rw [h]
            exact Nat.min_le_left _ _
          · exact Nat.le_trans (Nat.min_le_right _ _) (ih s h)

/-- The minimum rank of a non-empty group is attained by some member. -/
theorem minRank_mem : ∀ (l : List CandSeq), l ≠ [] →
    ∃ s ∈ l, s.priority = minRank l := by
  intro l
  induction l with
  | nil =>
      intro h
      exact absurd rfl h
  | cons a t ih =>
      intro _
      cases t with
      | nil => exact ⟨a, List.mem_cons_self a [], rfl⟩
      | cons b t2 =>
          rcases Nat.le_total a.priority (minRank (b :: t2)) with hle | hge
          · refine ⟨a, List.mem_cons_self a _, ?_⟩
            show a.priority = min a.priority (minRank (b :: t2))
            exact (Nat.min_eq_left hle).symm
          · obtain ⟨x, hx, hxe⟩ := ih (by simp)
            refine ⟨x, List.mem_cons_of_mem a hx, ?_⟩
            show x.priority = min a.priority (minRank (b :: t2))
            rw [Nat.min_eq_right hge, hxe]

/-- Membership is preserved by stable insertion. -/
theorem mem_insertByPriority {x a : CandSeq} :
    ∀ {l : List CandSeq}, x ∈ insertByPriority a l ↔ x = a ∨ x ∈ l := by
  intro l
  induction l with
  | nil => simp [insertByPriority]
  | cons b t ih =>
      unfold insertByPriority
      split
      · simp [List.mem_cons]
      · rw [List.mem_cons, ih, List.mem_cons]
        tauto

/-- Membership is preserved by the stable sort. -/
theorem mem_sortByPriority {x : CandSeq} :
    ∀ {l : List CandSeq}, x ∈ sortByPriority l ↔ x ∈ l := by
  intro l
  induction l with
  | nil => simp [sortByPriority]
  | cons a t ih =>
      show x ∈ insertByPriority a (sortByPriority t) ↔ _
      rw [mem_insertByPriority, ih, List.mem_cons]

/-- Stable insertion into a priority-sorted list stays sorted. -/
theorem pairwise_insertByPriority {a : CandSeq} :
    ∀ {l : List CandSeq},
      List.Pairwise (fun x y => x.priority ≤ y.priority) l →
      List.Pairwise (fun x y => x.priority ≤ y.priority) (insertByPriority a l) := by
  intro l
  induction l with
  | nil =>
      intro _
      simp [insertByPriority]
  | cons b t ih =>
      intro h
      obtain ⟨hb, ht⟩ := List.pairwise_cons.mp h
      unfold insertByPriority
      split
      · case isTrue hab =>
          refine List.pairwise_cons.mpr ⟨?_, h⟩
          intro x hx
          rcases List.mem_cons.mp hx with he | hm
          · rw [he]
            exact hab
          · exact Nat.le_trans hab (hb x hm)
      · case isFalse hab =>
          refine List.pairwise_cons.mpr ⟨?_, ih ht⟩
          intro x hx
          rcases mem_insertByPriority.mp hx with he | hm
          · rw [he]
            exact Nat.le_of_lt (Nat.lt_of_not_le hab)
          · exact hb x hm

/-- The stable sort is priority-sorted. -/
theorem pairwise_sortByPriority :
    ∀ (l : List CandSeq),
      List.Pairwise (fun x y => x.priority ≤ y.priority) (sortByPriority l) := by
  intro l
  induction l with
  | nil => simp [sortByPriority]
  | cons a t ih => exact pairwise_insertByPriority ih

/-- The head of the sorted group attains the group's minimum rank. -/
theorem head_sortByPriority_minRank {G : List CandSeq} {best : CandSeq}
    {rest : List CandSeq} (hs : sortByPriority G = best :: rest) :
    best.priority = minRank G := by
  have hbest : best ∈ G := by
    rw [← mem_sortByPriority, hs]
    exact List.mem_cons_self best rest
  have h1 : minRank G ≤ best.priority := minRank_le G best hbest
  have hGne : G ≠ [] := List.ne_nil_of_mem hbest
  obtain ⟨x, hx, hxe⟩ := minRank_mem G hGne
  have hxs : x ∈ best :: rest := by
    rw [← hs, mem_sortByPriority]
    exact hx
  have h2 : best.priority ≤ minRank G := by
    rcases List.mem_cons.mp hxs with he | hm
    · rw [← hxe, he]
    · have hp := pairwise_sortByPriority G
      rw [hs] at hp
      have := (List.pairwise_cons.mp hp).1 x hm
      rw [hxe] at this
      exact this
  exact Nat.le_antisymm h2 h1

/-- Filtering for a rank that bounds the whole list from below commutes
with stable insertion: the inserted element lands in front of the
minimum-rank block when it attains the bound, and past it otherwise. -/
theorem filter_insertByPriority_min {a : CandSeq} {m : Nat} :
    ∀ {l : List CandSeq}, m ≤ a.priority → (∀ x ∈ l, m ≤ x.priority) →
      (insertByPriority a l).filter (fun s => s.priority == m) =
        if a.priority == m then a :: l.filter (fun s => s.priority == m)
        else l.filter (fun s => s.priority == m) := by
  intro l
  induction l with
  | nil =>
      intro _ _
      simp [insertByPriority, List.filter_cons]
  | cons b t ih =>
      intro ha hl
      unfold insertByPriority
      split
      · case isTrue hab =>
          rw [List.filter_cons]
      · case isFalse hab =>
          by_cases ham : a.priority = m
          · have hmb : m ≤ b.priority := hl b (List.mem_cons_self b t)
            rw [ham] at hab
            exact absurd hmb hab
          · have hbeq : (a.priority == m) = false := by
              simp [ham]
            rw [hbeq]
            rw [List.filter_cons, List.filter_cons]
            have ht : ∀ x ∈ t, m ≤ x.priority :=
              fun x hx => hl x (List.mem_cons_of_mem b hx)
            have := ih ha ht
            rw [hbeq] at this
            by_cases hbm : (b.priority == m) = true
            · rw [hbm]
              simp [this]
            · have hbm' : (b.priority == m) = false := by
                cases hb : (b.priority == m)
                · rfl
                · exact absurd hb hbm
              rw [hbm']
              simp [this]

/-- Filtering for the minimum rank commutes with the stable sort: the
minimum-rank candidates appear in the sorted group in discovery order. -/
theorem filter_sortByPriority_min {m : Nat} :
    ∀ (G : List CandSeq), (∀ x ∈ G, m ≤ x.priority) →
      (sortByPriority G).filter (fun s => s.priority == m) =
        G.filter (fun s => s.priority == m) := by
  intro G
  induction G with
  | nil =>
      intro _
      rfl
  | cons a t ih =>
      intro hG
      have ha : m ≤ a.priority := hG a (List.mem_cons_self a t)
      have ht : ∀ x ∈ t, m ≤ x.priority :=
        fun x hx => hG x (List.mem_cons_of_mem a hx)
      have hts : ∀ x ∈ sortByPriority t, m ≤ x.priority :=
        fun x hx => ht x (mem_sortByPriority.mp hx)
      show (insertByPriority a (sortByPriority t)).filter
        (fun s => s.priority == m) = _
      rw [filter_insertByPriority_min ha hts, ih ht, List.filter_cons]

/-- selectSession, characterised over the unsorted group: it emits
exactly the minimum-rank candidates in discovery order, numbering them
from 1 when there are at least two and leaving the run empty otherwise.
(The sort is stable, so filtering the sorted group for the minimum rank
gives the same list as filtering the group itself.) -/
theorem selectSession_eq (G : List CandSeq) :
    selectSession G = (G.filter (fun s => s.priority == minRank G)).enum.map
      (fun p => setRun (if 1 < (G.filter (fun s => s.priority == minRank G)).length
        then some (p.1 + 1) else none) p.2) := by
  cases hs : sortByPriority G with
  | nil =>
      have hG : G = [] := by
        cases G with
        | nil => rfl
        | cons a t =>
            have ha : a ∈ sortByPriority (a :: t) :=
              mem_sortByPriority.mpr (List.mem_cons_self a t)
            rw [hs] at ha
            cases ha
      rw [hG]
      rfl
  | cons best rest =>
      have hm : best.priority = minRank G := head_sortByPriority_minRank hs
      have hfe : (best :: rest).filter (fun s => s.priority == best.priority) =
          G.filter (fun s => s.priority == minRank G) := by
        rw [hm, ← hs]
        exact filter_sortByPriority_min G (minRank_le G)
      unfold selectSession
      rw [hs]
      dsimp only
      rw [hfe]

/-- Session keys in first-occurrence order contain exactly the keys. -/
theorem mem_keysInOrder_foldl (x : String) :
    ∀ (l acc : List String),
      x ∈ l.foldl (fun acc k => if k ∈ acc then acc else acc ++ [k]) acc ↔
        x ∈ acc ∨ x ∈ l := by
  intro l
  induction l with
  | nil =>
      intro acc
      simp
  | cons k t ih =>
      intro acc
      show x ∈ t.foldl _ (if k ∈ acc then acc else acc ++ [k]) ↔ _
      rw [ih]
      by_cases hk : k ∈ acc
      · rw [if_pos hk, List.mem_cons]
        constructor
        · intro h
          rcases h with h | h
          · exact Or.inl h
          · exact Or.inr (Or.inr h)
        · intro h
          rcases h with h | h | h
          · exact Or.inl h
          · exact Or.inl (h ▸ hk)
          · exact Or.inr h
      · rw [if_neg hk]
        simp [List.mem_append, List.mem_cons]
        tauto

/-- The key list never repeats a key. -/
theorem nodup_keysInOrder_foldl :
    ∀ (l acc : List String), acc.Nodup →
      (l.foldl (fun acc k => if k ∈ acc then acc else acc ++ [k]) acc).Nodup := by
  intro l
  induction l with
  | nil =>
      intro acc h
      exact h
  | cons k t ih =>
      intro acc h
      show (t.foldl _ (if k ∈ acc then acc else acc ++ [k])).Nodup
      by_cases hk : k ∈ acc
      · rw [if_pos hk]
        exact ih acc h
      · rw [if_neg hk]
        refine ih _ ?_
        simp [List.nodup_append, h, hk]

/-- keysInOrder holds exactly the keys of its input. -/
theorem mem_keysInOrder (x : String) (l : List String) :
    x ∈ keysInOrder l ↔ x ∈ l := by
  unfold keysInOrder
  rw [mem_keysInOrder_foldl]
  simp

/-- keysInOrder is duplicate-free. -/
theorem nodup_keysInOrder (l : List String) : (keysInOrder l).Nodup :=
  nodup_keysInOrder_foldl l [] List.nodup_nil

/-- Every sequence selectSession emits keeps the session key shared by
its group. -/
theorem selectSession_session {G : List CandSeq} {k' : String}
    (hG : ∀ s ∈ G, s.session_date = k') :
    ∀ x ∈ selectSession G, x.session_date = k' := by
  intro x hx
  rw [selectSession_eq] at hx
  obtain ⟨p, hp, hpe⟩ := List.mem_map.mp hx
  have h2 := List.snd_mem_of_mem_enum hp
  have h3 : p.2 ∈ G := (List.mem_filter.mp h2).1
  rw [← hpe]
  exact hG p.2 h3

/-- A flat map whose terms vanish is empty. -/
theorem flatMap_nil_of_all {t : List String} {g : String → List CandSeq}
    (h : ∀ x ∈ t, g x = []) : t.flatMap g = [] := by
  induction t with
  | nil => rfl
  | cons a u ih =>
      rw [List.flatMap_cons, h a (List.mem_cons_self a u), List.nil_append]
      exact ih (fun x hx => h x (List.mem_cons_of_mem a hx))

/-- A flat map over distinct keys in which only one key contributes
reduces to that key's contribution. -/
theorem flatMap_eq_of_single {L : List String} {g : String → List CandSeq}
    {k : String} (hnd : L.Nodup) (hk : k ∈ L)
    (hz : ∀ x ∈ L, x ≠ k → g x = []) : L.flatMap g = g k := by
  induction L with
  | nil => cases hk
  | cons a t ih =>
      rw [List.nodup_cons] at hnd
      obtain ⟨hat, hndt⟩ := hnd
      rw [List.flatMap_cons]
      rcases List.mem_cons.mp hk with he | hm
      · have ht0 : t.flatMap g = [] := by
          refine flatMap_nil_of_all ?_
          intro x hx
          refine hz x (List.mem_cons_of_mem a hx) ?_
          intro hc
          exact hat (he ▸ hc ▸ hx)
        rw [he, ht0, List.append_nil]
      · have ha0 : g a = [] :=
          hz a (List.mem_cons_self a t) (fun hc => hat (hc ▸ hm))
        rw [ha0, List.nil_append]
        exact ih hndt hm (fun x hx => hz x (List.mem_cons_of_mem a hx))

/-- Restricting the output of select_best_sequences to one session key
yields exactly the per-session selection of that key's group. -/
theorem select_best_filter_eq (sequences : List CandSeq) (k : String) :
    (select_best_sequences sequences).filter (fun s => s.session_date == k) =
      selectSession (sessionGroup sequences k) := by
  have hgs : ∀ k' : String, ∀ x ∈ selectSession (sessionGroup sequences k'),
      x.session_date = k' := by
    intro k'
    refine selectSession_session ?_
    intro s hs
    exact eq_of_beq (List.mem_filter.mp hs).2
  unfold select_best_sequences
  rw [List.filter_flatMap]
  by_cases hk : k ∈ keysInOrder (sequences.map (fun s => s.session_date))
  · rw [flatMap_eq_of_single (nodup_keysInOrder _) hk ?_]
    · refine List.filter_eq_self.mpr ?_
      intro x hx
      have := hgs k x hx
      simp [this]
    · intro x hx hxk
      refine List.filter_eq_nil_iff.mpr ?_
      intro c hc
      have := hgs x c hc
      simp [this, hxk]
  · have hgroup : sessionGroup sequences k = [] := by
      cases hG : sessionGroup sequences k with
      | nil => rfl
      | cons s t =>
          have hsmem : s ∈ sessionGroup sequences k := by
            rw [hG]
            exact List.mem_cons_self s t
          have h1 := List.mem_filter.mp hsmem
          have h2 : k ∈ sequences.map (fun s => s.session_date) := by
            have he : s.session_date = k := eq_of_beq h1.2
            rw [← he]
            exact List.mem_map_of_mem (fun s => s.session_date) h1.1
          exact absurd ((mem_keysInOrder _ _).mpr h2) hk
    rw [hgroup]
    have hz : ∀ x ∈ keysInOrder (sequences.map (fun s => s.session_date)),
        (selectSession (sequences.filter
          (fun s => s.session_date == x))).filter
          (fun s => s.session_date == k) = [] := by
      intro x hx
      have hxk : x ≠ k := fun hc => hk (hc ▸ hx)
      refine List.filter_eq_nil_iff.mpr ?_
      intro c hc
      have := hgs x c hc
      simp [this, hxk]
    rw [flatMap_nil_of_all hz]
    rfl

/-- C1.  Within each session group of candidates: when exactly one
candidate attains the group's minimum priority rank,
select_best_sequences emits exactly that candidate with a null run
index; when N>1 candidates tie at the minimum rank, it emits exactly
those N candidates, in discovery order, with run indices 1..N (the
position in the tie list plus one), and none of them gets a null run
index. -/
theorem select_best_sequences_tie_runs (sequences : List CandSeq) (k : String) :
    ((minRankTies sequences k).length = 1 →
      (select_best_sequences sequences).filter (fun s => s.session_date == k) =
        (minRankTies sequences k).map (setRun none)) ∧
    (1 < (minRankTies sequences k).length →
      (select_best_sequences sequences).filter (fun s => s.session_date == k) =
        (minRankTies sequences k).enum.map
          (fun p => setRun (some (p.1 + 1)) p.2)) := by
  have hbase : (select_best_sequences sequences).filter
      (fun s => s.session_date == k) =
      (minRankTies sequences k).enum.map (fun p =>
        setRun (if 1 < (minRankTies sequences k).length then some (p.1 + 1)
          else none) p.2) := by
    rw [select_best_filter_eq, selectSession_eq]
    rfl
  constructor
  · intro h1
    have hno : ¬ 1 < (minRankTies sequences k).length := by
      rw [h1]
      exact Nat.lt_irrefl 1
    rw [hbase]
    conv_rhs => rw [← List.enum_map_snd (minRankTies sequences k), List.map_map]
    refine List.map_congr_left ?_
    intro p _
    simp [hno]
  · intro h2
    rw [hbase]
    refine List.map_congr_left ?_
    intro p _
    simp [h2]
